import Mathlib

/-!
Verification of the SIAE hackathon route-construction engine
(repository Team2Hackaton_DataPizza_x_SIAE).

The core algorithm is the greedy route builder
Traveler._high_value_strategy in inference_motor.ipynb (cell-0), together
with the flattening of the per-day routes to the submission table (cell-6).
The jurisdiction index, the route validator and the geo-distance model are
imported by the notebook from the external tax_inspector_competition module,
which is not part of this repository; those parts are modelled from the
specification and are marked as such in their doc comments.

Numeric fields (coordinates, fee values) are embedded as rationals; the
geo-distance model, which is pure real arithmetic, is embedded over the reals.
-/

/-- A point of interest, as in the dataset schema of the notebook
(columns id, lat, lon, poi_type, fee_value, jurisdiction); starting points
are POI-shaped records with poi_type "starting_point" and fee_value 0. -/
structure POI where
  id : ℕ
  lat : ℚ
  lon : ℚ
  poi_type : String
  fee_value : ℚ
  jurisdiction : String
  deriving DecidableEq, Repr

/-- The comparison used by the candidate sort: a comes before b when
b.fee_value ≤ a.fee_value, i.e. a descending order on fee_value. -/
def feeGe (a b : POI) : Prop := b.fee_value ≤ a.fee_value

instance : DecidableRel feeGe := fun a b =>
  inferInstanceAs (Decidable (b.fee_value ≤ a.fee_value))

instance : IsTotal POI feeGe := ⟨fun a b => le_total b.fee_value a.fee_value⟩

instance : IsTrans POI feeGe := ⟨fun _ _ _ h1 h2 => le_trans h2 h1⟩

/-- The candidate sort of the builder:
available_pois.sort(key=lambda poi: poi.fee_value, reverse=True).
Python list.sort is a stable sort; insertionSort with the total preorder
feeGe is a stable sort placing higher fee_value first, with ties keeping
their original order (stability is proved below). -/
def sortByFeeDesc (l : List POI) : List POI := List.insertionSort feeGe l

/-- The acceptance loop of Traveler._high_value_strategy: scan the candidates
once in order; for each candidate form test_route = selected + [poi] and
commit it exactly when the acceptance test passes. The acceptance test is a
parameter so that the capped and the uncapped builder share this loop. -/
def greedyLoop (accept : List POI → Bool) : List POI → List POI → List POI
  | selected, [] => selected
  | selected, poi :: rest =>
    if accept (selected ++ [poi]) then greedyLoop accept (selected ++ [poi]) rest
    else greedyLoop accept selected rest

/-- Embedding of Traveler._high_value_strategy (inference_motor.ipynb,
cell-0).  jurisdictions stands for self.simulator.optimizer.jurisdictions.get
(with default []), is_valid_route for self.simulator.optimizer.is_valid_route;
both live in the external module, so the builder is parametric in them. -/
def highValueStrategy (jurisdictions : String → List POI)
    (is_valid_route : POI → List POI → Bool) (starting_point : POI) : List POI :=
  let jurisdiction_pois := jurisdictions starting_point.jurisdiction
  let available_pois :=
    jurisdiction_pois.filter (fun poi => decide (poi.id ≠ starting_point.id))
  greedyLoop
    (fun test_route =>
      decide (test_route.length ≤ 8) && is_valid_route starting_point test_route)
    [] (sortByFeeDesc available_pois)

/-- The same builder with the 8-stop cap removed (the length test replaced by
an always-true bound, i.e. set to infinity); used for the cap-monotonicity
claim. -/
def highValueStrategyNoCap (jurisdictions : String → List POI)
    (is_valid_route : POI → List POI → Bool) (starting_point : POI) : List POI :=
  let jurisdiction_pois := jurisdictions starting_point.jurisdiction
  let available_pois :=
    jurisdiction_pois.filter (fun poi => decide (poi.id ≠ starting_point.id))
  greedyLoop (fun test_route => is_valid_route starting_point test_route)
    [] (sortByFeeDesc available_pois)

/-- Modelled from the spec: the Jurisdiction Index
(simulator.optimizer.jurisdictions) is built by the external
tax_inspector_competition module, not under src/.  Spec section 4.2 and the
data model: a mapping from jurisdiction tag to the ordered collection of POIs
of that jurisdiction, built once from the full dataset; lookup returns an
empty collection for unknown jurisdictions rather than failing. -/
def jurisdictionIndex (dataset : List POI) (j : String) : List POI :=
  dataset.filter (fun poi => decide (poi.jurisdiction = j))

/-- Modelled from the spec: the Route Feasibility Validator
(simulator.optimizer.is_valid_route) is imported from the external
tax_inspector_competition module, not under src/.  Spec section 4.3 records
its observed behaviour: a route is valid while its length does not exceed 8,
all POIs are drawn from the starting point's jurisdiction, and no POI
repeats. -/
def is_valid_route_spec (starting_point : POI) (route : List POI) : Bool :=
  decide (route.length ≤ 8) &&
    route.all (fun poi => decide (poi.jurisdiction = starting_point.jurisdiction)) &&
    decide ((route.map POI.id).Nodup)

/-- The Greedy Route Builder procedure exactly as the spec words it
(section 4.4): take all POIs in the starting point's jurisdiction, drop the
starting point's own id, sort by fee_value descending (stable), then fold
over the sorted candidates accepting a candidate exactly when the tentative
route has length at most 8 and the validator accepts it. -/
def specGreedyRoute (jurisdictions : String → List POI)
    (is_valid_route : POI → List POI → Bool) (starting_point : POI) : List POI :=
  let candidates :=
    (jurisdictions starting_point.jurisdiction).filter
      (fun poi => decide (poi.id ≠ starting_point.id))
  (sortByFeeDesc candidates).foldl
    (fun accepted candidate =>
      let tentative := accepted ++ [candidate]
      if decide (tentative.length ≤ 8) && is_valid_route starting_point tentative
      then tentative else accepted)
    []

theorem greedyLoop_eq_foldl (accept : List POI → Bool) :
    ∀ (l selected : List POI),
      greedyLoop accept selected l =
        l.foldl (fun acc c => if accept (acc ++ [c]) then acc ++ [c] else acc)
          selected
  | [], selected => rfl
  | poi :: rest, selected => by
    simp only [greedyLoop, List.foldl_cons]
    by_cases h : accept (selected ++ [poi]) = true
    · rw [if_pos h, if_pos h, greedyLoop_eq_foldl accept rest]
    · rw [if_neg h, if_neg h, greedyLoop_eq_foldl accept rest]

/-- C1: for every jurisdiction index, validator and starting point, the
builder of the code (Traveler._high_value_strategy) returns exactly the route
of the procedure described by the spec: candidates of the starting point's
jurisdiction minus its own id, sorted by fee_value descending, scanned once
accepting a candidate exactly when the tentative route has length at most 8
and the validator accepts it, with no backtracking and no retry. -/
theorem highValueStrategy_eq_specGreedyRoute
    (jurisdictions : String → List POI) (is_valid_route : POI → List POI → Bool)
    (starting_point : POI) :
    highValueStrategy jurisdictions is_valid_route starting_point =
      specGreedyRoute jurisdictions is_valid_route starting_point := by
  unfold highValueStrategy specGreedyRoute
  exact greedyLoop_eq_foldl _ _ _

/-- Day-1 starting point of the notebook run: (41.8907406, 12.4773952),
resolved to jurisdiction J5, synthetic id 9000, fee_value 0. -/
def sp_day1 : POI :=
  ⟨9000, mkRat 418907406 10000000, mkRat 124773952 10000000, "starting_point",
    0, "J5"⟩

/-- The J5 swimming pool candidate of the example (fee_value 240.34). -/
def poi_swimming : POI :=
  ⟨5232181090, mkRat 4189043 100000, mkRat 1243866 100000, "swimming_pool",
    mkRat 24034 100, "J5"⟩

/-- The J5 sports centre candidate of the example (fee_value 228.10). -/
def poi_sports : POI :=
  ⟨11208102698, mkRat 4188479 100000, mkRat 1247139 100000, "sports_centre",
    mkRat 22810 100, "J5"⟩

/-- The J5 bakery candidate of the example (fee_value 171.01). -/
def poi_bakery : POI :=
  ⟨4224427195, mkRat 4188857 100000, mkRat 1247532 100000, "bakery",
    mkRat 17101 100, "J5"⟩

/-- The J5 hairdresser candidate of the example (fee_value 139.23). -/
def poi_hair : POI :=
  ⟨10248418330, mkRat 4189699 100000, mkRat 1247434 100000, "hairdresser",
    mkRat 13923 100, "J5"⟩

/-- The candidate pool of the spec's day-1 example, in dataset order. -/
def datasetJ5 : List POI := [poi_bakery, poi_swimming, poi_hair, poi_sports]

/-- A POI lying in a different jurisdiction than sp_day1. -/
def poi_off : POI := ⟨42, 0, 0, "bakery", 5, "J1"⟩

theorem greedyLoop_extends (accept : List POI → Bool) :
    ∀ (l selected : List POI),
      ∃ t, greedyLoop accept selected l = selected ++ t ∧ t.Sublist l
  | [], selected => ⟨[], by simp [greedyLoop]⟩
  | poi :: rest, selected => by
    simp only [greedyLoop]
    by_cases h : accept (selected ++ [poi]) = true
    · rw [if_pos h]
      obtain ⟨t, ht, hs⟩ := greedyLoop_extends accept rest (selected ++ [poi])
      exact ⟨poi :: t, by simpa [List.append_assoc] using ht, List.Sublist.cons₂ _ hs⟩
    · rw [if_neg h]
      obtain ⟨t, ht, hs⟩ := greedyLoop_extends accept rest selected
      exact ⟨t, ht, List.Sublist.cons _ hs⟩

theorem greedyLoop_invariant (P : List POI → Prop) (accept : List POI → Bool)
    (hstep : ∀ s c, P s → accept (s ++ [c]) = true → P (s ++ [c])) :
    ∀ (l selected : List POI), P selected → P (greedyLoop accept selected l)
  | [], _, h => h
  | poi :: rest, selected, h => by
    simp only [greedyLoop]
    by_cases hc : accept (selected ++ [poi]) = true
    · rw [if_pos hc]
      exact greedyLoop_invariant P accept hstep rest _ (hstep _ _ h hc)
    · rw [if_neg hc]
      exact greedyLoop_invariant P accept hstep rest _ h

theorem greedyLoop_capped_frozen (valid : List POI → Bool) :
    ∀ (l selected : List POI), 8 ≤ selected.length →
      greedyLoop (fun r => decide (r.length ≤ 8) && valid r) selected l = selected
  | [], _, _ => rfl
  | poi :: rest, selected, h => by
    have hd : decide ((selected ++ [poi]).length ≤ 8) = false := by
      rw [decide_eq_false_iff_not]
      simp only [List.length_append, List.length_cons, List.length_nil]
      omega
    simp only [greedyLoop, hd, Bool.false_and, Bool.false_eq_true, if_false]
    exact greedyLoop_capped_frozen valid rest selected h

theorem nocap_loop_split (valid : List POI → Bool) :
    ∀ (l selected : List POI), selected.length ≤ 8 →
      ∃ t, greedyLoop valid selected l =
        greedyLoop (fun r => decide (r.length ≤ 8) && valid r) selected l ++ t
  | [], selected, _ => ⟨[], by simp [greedyLoop]⟩
  | poi :: rest, selected, h => by
    rcases lt_or_eq_of_le h with hlt | heq
    · have hb : decide ((selected ++ [poi]).length ≤ 8) = true := by
        simp only [decide_eq_true_eq, List.length_append, List.length_cons,
          List.length_nil]
        omega
      simp only [greedyLoop, hb, Bool.true_and]
      by_cases hv : valid (selected ++ [poi]) = true
      · rw [if_pos hv, if_pos hv]
        refine nocap_loop_split valid rest (selected ++ [poi]) ?_
        simp only [List.length_append, List.length_cons, List.length_nil]
        omega
      · rw [if_neg hv, if_neg hv]
        exact nocap_loop_split valid rest selected h
    · rw [greedyLoop_capped_frozen valid (poi :: rest) selected (by omega)]
      obtain ⟨t, ht, _⟩ := greedyLoop_extends valid (poi :: rest) selected
      exact ⟨t, ht⟩

/-- C2: with the spec-modelled jurisdiction index and validator, every route
built by the greedy builder has at most 8 stops, repeats no POI id, and stays
inside the starting point's jurisdiction. -/
theorem highValueStrategy_invariants (dataset : List POI) (starting_point : POI) :
    (highValueStrategy (jurisdictionIndex dataset) is_valid_route_spec
        starting_point).length ≤ 8 ∧
    ((highValueStrategy (jurisdictionIndex dataset) is_valid_route_spec
        starting_point).map POI.id).Nodup ∧
    ∀ poi ∈ highValueStrategy (jurisdictionIndex dataset) is_valid_route_spec
        starting_point,
      poi.jurisdiction = starting_point.jurisdiction := by
  unfold highValueStrategy
  refine greedyLoop_invariant
    (fun r => r.length ≤ 8 ∧ (r.map POI.id).Nodup ∧
      ∀ poi ∈ r, poi.jurisdiction = starting_point.jurisdiction)
    _ ?_ _ [] ⟨by simp, by simp, by simp⟩
  intro s c _ hacc
  have h2 : is_valid_route_spec starting_point (s ++ [c]) = true := by
    rw [Bool.and_eq_true] at hacc
    exact hacc.2
  simp only [is_valid_route_spec, Bool.and_eq_true, decide_eq_true_eq,
    List.all_eq_true] at h2
  exact ⟨h2.1.1, h2.2, fun poi hp => h2.1.2 poi hp⟩

/-- C2 witness: the invariants evaluated on the concrete day-1 example. -/
theorem highValueStrategy_invariants_witness :
    (highValueStrategy (jurisdictionIndex datasetJ5) is_valid_route_spec
        sp_day1).length ≤ 8 ∧
    ((highValueStrategy (jurisdictionIndex datasetJ5) is_valid_route_spec
        sp_day1).map POI.id).Nodup ∧
    poi_swimming.jurisdiction = sp_day1.jurisdiction := by
  obtain ⟨h1, h2, h3⟩ := highValueStrategy_invariants datasetJ5 sp_day1
  exact ⟨h1, h2, h3 poi_swimming (by decide)⟩

/-- C3: on the day-1 example (starting point (41.8907406, 12.4773952) in J5,
candidate pool with fee_values 240.34, 228.10, 171.01, 139.23, all mutually
feasible under the spec-modelled validator), the builder returns exactly the
four candidates in strictly descending fee_value order. -/
theorem route_day1_example :
    highValueStrategy (jurisdictionIndex datasetJ5) is_valid_route_spec sp_day1 =
      [poi_swimming, poi_sports, poi_bakery, poi_hair] ∧
    List.Pairwise (fun a b => b.fee_value < a.fee_value)
      (highValueStrategy (jurisdictionIndex datasetJ5) is_valid_route_spec sp_day1) := by
  constructor
  · decide
  · decide

/-- C4: when no POI of the dataset lies in the starting point's jurisdiction
(the jurisdiction is absent from the index, or it has zero candidate POIs),
the builder returns the empty route; being a total function it raises no
error and the rest of the run is unaffected. -/
theorem empty_jurisdiction_empty_route (dataset : List POI)
    (is_valid_route : POI → List POI → Bool) (starting_point : POI)
    (h : ∀ poi ∈ dataset, poi.jurisdiction ≠ starting_point.jurisdiction) :
    highValueStrategy (jurisdictionIndex dataset) is_valid_route starting_point
      = [] := by
  have hidx : jurisdictionIndex dataset starting_point.jurisdiction = [] := by
    simp only [jurisdictionIndex, List.filter_eq_nil_iff, decide_eq_true_eq]
    exact h
  unfold highValueStrategy
  rw [hidx]
  rfl

/-- C4 witness: a dataset whose only POI lies in J1, against the J5 starting
point, yields the empty route. -/
theorem empty_jurisdiction_empty_route_witness :
    highValueStrategy (jurisdictionIndex [poi_off]) is_valid_route_spec sp_day1
      = [] :=
  empty_jurisdiction_empty_route [poi_off] is_valid_route_spec sp_day1
    (by decide)

/-- C6: every route the builder returns is ordered by non-increasing
fee_value: for positions i < j the POI at i has fee_value at least that of
the POI at j.  This holds for every jurisdiction index and every validator,
because the accepted list is a sublist of the descending-sorted candidate
list. -/
theorem route_sorted_desc (jurisdictions : String → List POI)
    (is_valid_route : POI → List POI → Bool) (starting_point : POI)
    (i j : ℕ) (hij : i < j)
    (hj : j < (highValueStrategy jurisdictions is_valid_route
      starting_point).length) :
    ((highValueStrategy jurisdictions is_valid_route starting_point).get
        ⟨j, hj⟩).fee_value ≤
      ((highValueStrategy jurisdictions is_valid_route starting_point).get
        ⟨i, lt_trans hij hj⟩).fee_value := by
  have key : List.Pairwise feeGe
      (highValueStrategy jurisdictions is_valid_route starting_point) := by
    unfold highValueStrategy
    obtain ⟨t, ht, hs⟩ := greedyLoop_extends
      (fun test_route => decide (test_route.length ≤ 8) &&
        is_valid_route starting_point test_route)
      (sortByFeeDesc ((jurisdictions starting_point.jurisdiction).filter
        (fun poi => decide (poi.id ≠ starting_point.id)))) []
    rw [ht, List.nil_append]
    exact List.Pairwise.sublist hs (List.sorted_insertionSort feeGe _)
  exact List.pairwise_iff_get.mp key ⟨i, lt_trans hij hj⟩ ⟨j, hj⟩ hij

/-- C6 witness: on the concrete day-1 example, the fee at position 1 is at
most the fee at position 0. -/
theorem route_sorted_desc_witness :
    ((highValueStrategy (jurisdictionIndex datasetJ5) is_valid_route_spec
        sp_day1).get ⟨1, by decide⟩).fee_value ≤
      ((highValueStrategy (jurisdictionIndex datasetJ5) is_valid_route_spec
        sp_day1).get ⟨0, by decide⟩).fee_value :=
  route_sorted_desc (jurisdictionIndex datasetJ5) is_valid_route_spec sp_day1
    0 1 (by decide) (by decide)

/-- C8: removing the 8-stop cap never shrinks the route: for every
jurisdiction index, validator and starting point, the uncapped builder's
route equals the capped route extended by some (possibly empty) tail. -/
theorem nocap_never_shrinks (jurisdictions : String → List POI)
    (is_valid_route : POI → List POI → Bool) (starting_point : POI) :
    ∃ t, highValueStrategyNoCap jurisdictions is_valid_route starting_point =
      highValueStrategy jurisdictions is_valid_route starting_point ++ t := by
  unfold highValueStrategy highValueStrategyNoCap
  exact nocap_loop_split _ _ [] (by simp)

theorem filter_fee_orderedInsert (a : POI) (v : ℚ) (l : List POI) :
    (List.orderedInsert feeGe a l).filter (fun p => decide (p.fee_value = v)) =
      if a.fee_value = v
      then a :: l.filter (fun p => decide (p.fee_value = v))
      else l.filter (fun p => decide (p.fee_value = v)) := by
  rw [List.orderedInsert_eq_take_drop, List.filter_append, List.filter_cons]
  by_cases hv : a.fee_value = v
  · have htake : (l.takeWhile fun b => decide ¬ feeGe a b).filter
        (fun p => decide (p.fee_value = v)) = [] := by
      rw [List.filter_eq_nil_iff]
      intro b hb
      have hpred := List.mem_takeWhile_imp hb
      simp only [decide_eq_true_eq] at hpred
      have hlt : a.fee_value < b.fee_value := lt_of_not_le hpred
      simp only [decide_eq_true_eq]
      intro hbv
      rw [hbv, ← hv] at hlt
      exact lt_irrefl _ hlt
    have hsplit : l.filter (fun p => decide (p.fee_value = v)) =
        ((l.takeWhile fun b => decide ¬ feeGe a b).filter
          (fun p => decide (p.fee_value = v))) ++
        ((l.dropWhile fun b => decide ¬ feeGe a b).filter
          (fun p => decide (p.fee_value = v))) := by
      rw [← List.filter_append, List.takeWhile_append_dropWhile]
    rw [if_pos hv, if_pos (by simp [hv]), htake, hsplit, htake]
    simp
  · rw [if_neg hv, if_neg (by simp [hv]), ← List.filter_append,
      List.takeWhile_append_dropWhile]

theorem insortFee_stable (v : ℚ) :
    ∀ l : List POI,
      (List.insertionSort feeGe l).filter (fun p => decide (p.fee_value = v)) =
        l.filter (fun p => decide (p.fee_value = v))
  | [] => rfl
  | a :: l => by
    simp only [List.insertionSort]
    rw [filter_fee_orderedInsert, List.filter_cons]
    by_cases hv : a.fee_value = v
    · rw [if_pos hv, if_pos (by simp [hv]), insortFee_stable v l]
    · rw [if_neg hv, if_neg (by simp [hv]), insortFee_stable v l]

/-- C5: the builder is deterministic — on identical jurisdiction index,
validator and starting point two runs return identical routes — and the
candidate sort is stable: for every fee value, the candidates carrying that
value appear in the sorted list exactly in their original dataset order.  As
a pure function of its arguments, the route depends on nothing but the
dataset-derived index, the validator and the starting point. -/
theorem determinism_and_stable_sort :
    (∀ (j1 j2 : String → List POI) (v1 v2 : POI → List POI → Bool)
        (sp1 sp2 : POI), j1 = j2 → v1 = v2 → sp1 = sp2 →
        highValueStrategy j1 v1 sp1 = highValueStrategy j2 v2 sp2) ∧
    ∀ (l : List POI) (v : ℚ),
      (sortByFeeDesc l).filter (fun p => decide (p.fee_value = v)) =
        l.filter (fun p => decide (p.fee_value = v)) := by
  constructor
  · rintro j1 j2 v1 v2 sp1 sp2 rfl rfl rfl
    rfl
  · exact fun l v => insortFee_stable v l

/-- C5 witness: the determinism and the stability statement evaluated on the
concrete day-1 example pool. -/
theorem determinism_and_stable_sort_witness :
    highValueStrategy (jurisdictionIndex datasetJ5) is_valid_route_spec sp_day1
        = highValueStrategy (jurisdictionIndex datasetJ5) is_valid_route_spec
          sp_day1 ∧
    (sortByFeeDesc datasetJ5).filter
        (fun p => decide (p.fee_value = mkRat 13923 100)) =
      datasetJ5.filter (fun p => decide (p.fee_value = mkRat 13923 100)) := by
  obtain ⟨hdet, hstab⟩ := determinism_and_stable_sort
  exact ⟨hdet _ _ _ _ _ _ rfl rfl rfl, hstab datasetJ5 (mkRat 13923 100)⟩

/-- Modelled from the spec: the squared-half-chord term of the Haversine
formula (spec section 4.1); the geo-distance implementation lives in the
external tax_inspector_competition module, not under src/.  Inputs are
decimal degrees, converted to radians. -/
noncomputable def haversine_a (lat1 lon1 lat2 lon2 : ℝ) : ℝ :=
  Real.sin ((lat2 - lat1) * Real.pi / 180 / 2) ^ 2 +
    Real.cos (lat1 * Real.pi / 180) * Real.cos (lat2 * Real.pi / 180) *
      Real.sin ((lon2 - lon1) * Real.pi / 180 / 2) ^ 2

/-- Modelled from the spec: great-circle distance in kilometers by the
Haversine formula with Earth radius 6371 km (spec section 4.1). -/
noncomputable def haversine_km (lat1 lon1 lat2 lon2 : ℝ) : ℝ :=
  6371 * (2 * Real.arcsin (Real.sqrt (haversine_a lat1 lon1 lat2 lon2)))

/-- Modelled from the spec: the Geo-Distance Model — distance converted to
hours at 5 km/h walking speed, then multiplied by the fixed correction
factor 2 (spec section 4.1 and the Routing section of the documentation). -/
noncomputable def walking_time (lat1 lon1 lat2 lon2 : ℝ) : ℝ :=
  haversine_km lat1 lon1 lat2 lon2 / 5 * 2

theorem haversine_a_symm (lat1 lon1 lat2 lon2 : ℝ) :
    haversine_a lat1 lon1 lat2 lon2 = haversine_a lat2 lon2 lat1 lon1 := by
  have key : ∀ x y : ℝ,
      Real.sin ((x - y) * Real.pi / 180 / 2) ^ 2 =
        Real.sin ((y - x) * Real.pi / 180 / 2) ^ 2 := by
    intro x y
    have hxy : (y - x) * Real.pi / 180 / 2 = -((x - y) * Real.pi / 180 / 2) := by
      ring
    rw [hxy, Real.sin_neg]
    ring
  unfold haversine_a
  rw [key lat2 lat1, key lon2 lon1]
  ring

/-- C9: the Geo-Distance Model is a pure function of its four coordinate
inputs (a Lean function of exactly those four reals) that never returns a
negative time, is symmetric in its two points, and returns zero on identical
points. -/
theorem walking_time_properties :
    (∀ lat1 lon1 lat2 lon2 : ℝ, 0 ≤ walking_time lat1 lon1 lat2 lon2) ∧
    (∀ lat1 lon1 lat2 lon2 : ℝ,
        walking_time lat1 lon1 lat2 lon2 = walking_time lat2 lon2 lat1 lon1) ∧
    (∀ lat lon : ℝ, walking_time lat lon lat lon = 0) := by
  refine ⟨fun lat1 lon1 lat2 lon2 => ?_, fun lat1 lon1 lat2 lon2 => ?_,
    fun lat lon => ?_⟩
  · have h0 : (0:ℝ) ≤
        Real.arcsin (Real.sqrt (haversine_a lat1 lon1 lat2 lon2)) :=
      Real.arcsin_nonneg.mpr (Real.sqrt_nonneg _)
    unfold walking_time haversine_km
    nlinarith [h0]
  · unfold walking_time haversine_km
    rw [haversine_a_symm]
  · unfold walking_time haversine_km haversine_a
    simp

/-- One row of the flattened submission table (cell-6).  The code emits the
dict keys route_id, jurisdiction_id, poi_id, lat, lon; despite its name, the
jurisdiction_id column stores poi_idx, the zero-based stop sequence index
within the day's route (the spec calls this column stop_sequence_index). -/
structure OutputRow where
  route_id : String
  jurisdiction_id : ℕ
  poi_id : ℕ
  lat : ℚ
  lon : ℚ
  deriving DecidableEq, Repr

/-- The row built for poi at stop index poi_idx of day route_idx; its
route_id is the string R_ + poi.jurisdiction + _ + str(route_idx). -/
def rowOf (route_idx poi_idx : ℕ) (poi : POI) : OutputRow :=
  ⟨"R_" ++ poi.jurisdiction ++ "_" ++ toString route_idx, poi_idx, poi.id,
    poi.lat, poi.lon⟩

/-- The inner loop of cell-6 (enumerate over the day's POI list): one row per
stop, stop indices counting up from poi_idx. -/
def rowsFrom (route_idx poi_idx : ℕ) : List POI → List OutputRow
  | [] => []
  | poi :: rest => rowOf route_idx poi_idx poi :: rowsFrom route_idx (poi_idx + 1) rest

/-- The outer loop of cell-6 (enumerate over paths): the rows of day
route_idx, then of day route_idx + 1, and so on. -/
def flattenFrom (route_idx : ℕ) : List (List POI) → List OutputRow
  | [] => []
  | route :: rest => rowsFrom route_idx 0 route ++ flattenFrom (route_idx + 1) rest

/-- Embedding of the cell-6 flattening: the flat_data table as a list of
rows, days enumerated from 0. -/
def flattenPaths (paths : List (List POI)) : List OutputRow := flattenFrom 0 paths

/-- The route_id shared by all rows of day route_idx when that day's route
lies entirely in jurisdiction j. -/
def routeIdOf (j : String) (route_idx : ℕ) : String :=
  "R_" ++ j ++ "_" ++ toString route_idx

/-- Modelled from the spec: the key order used when re-grouping the output
table by route_id (spec section 8 round-trip); keys listed in order of first
appearance, each kept once. -/
def uniqueKeys : List String → List String
  | [] => []
  | k :: ks => k :: (uniqueKeys ks).filter (fun x => decide (x ≠ k))

/-- Modelled from the spec: re-grouping the output table by route_id — for
each key in order of first appearance, the subsequence of rows carrying that
key, in table order. -/
def regroupRoutes (rows : List OutputRow) : List (List OutputRow) :=
  (uniqueKeys (rows.map OutputRow.route_id)).map
    (fun k => rows.filter (fun r => decide (r.route_id = k)))

/-- The stop-level content of a row: (poi_id, lat, lon). -/
def rowStop (r : OutputRow) : ℕ × ℚ × ℚ := (r.poi_id, r.lat, r.lon)

/-- The stop-level content of a route, in route order. -/
def routeStops (route : List POI) : List (ℕ × ℚ × ℚ) :=
  route.map (fun poi => (poi.id, poi.lat, poi.lon))

/-- The expected route_id of each day, days enumerated from route_idx,
jurisdictions given per day. -/
def keysFrom (route_idx : ℕ) : List String → List String
  | [] => []
  | j :: js => routeIdOf j route_idx :: keysFrom (route_idx + 1) js

/-- The per-day row blocks of the flattened table, days enumerated from
route_idx. -/
def blocksFrom (route_idx : ℕ) : List (List POI) → List (List OutputRow)
  | [] => []
  | route :: rest => rowsFrom route_idx 0 route :: blocksFrom (route_idx + 1) rest

/-- The route_ids of the days that contribute at least one row (the days
whose route is non-empty), days enumerated from route_idx. -/
def presentKeys (route_idx : ℕ) : List (List POI) → List String → List String
  | [], _ => []
  | _, [] => []
  | route :: rest, j :: js =>
    if route = [] then presentKeys (route_idx + 1) rest js
    else routeIdOf j route_idx :: presentKeys (route_idx + 1) rest js

/-- C7 counterexample: a run in which the second day's route is empty
contributes no rows for that day, so re-grouping the flattened table does
not reconstruct the original two routes. -/
theorem flatten_regroup_not_inverse_cex :
    (regroupRoutes (flattenPaths [[poi_off], []])).map (List.map rowStop) ≠
      [[poi_off], []].map routeStops := by decide

theorem uniq_subset : ∀ (l : List String), ∀ x ∈ uniqueKeys l, x ∈ l
  | [] => by simp [uniqueKeys]
  | k :: ks => by
    intro x hx
    simp only [uniqueKeys, List.mem_cons] at hx
    rcases hx with rfl | hx
    · exact List.mem_cons_self _ _
    · exact List.mem_cons_of_mem _
        (uniq_subset ks x (List.mem_of_mem_filter hx))

theorem uniq_nodup : ∀ l : List String, (uniqueKeys l).Nodup
  | [] => List.nodup_nil
  | k :: ks => by
    simp only [uniqueKeys, List.nodup_cons]
    refine ⟨fun hk => ?_, List.Nodup.filter _ (uniq_nodup ks)⟩
    have := List.of_mem_filter hk
    simp at this

theorem uniq_const_append (K : String) :
    ∀ (m l2 : List String), (∀ x ∈ m, x = K) → K ∉ l2 →
      uniqueKeys (m ++ l2) = if m = [] then uniqueKeys l2 else K :: uniqueKeys l2
  | [], l2, _, _ => by simp
  | k :: m', l2, hm, hK => by
    have hk : k = K := hm k (List.mem_cons_self k m')
    subst hk
    have hfilt : (uniqueKeys l2).filter (fun x => decide (x ≠ k)) = uniqueKeys l2 := by
      rw [List.filter_eq_self]
      intro a ha
      simp only [decide_eq_true_eq]
      intro h
      exact hK (h ▸ uniq_subset l2 a ha)
    rw [List.cons_append]
    simp only [uniqueKeys]
    rw [uniq_const_append k m' l2 (fun x hx => hm x (List.mem_cons_of_mem _ hx)) hK]
    by_cases hm' : m' = []
    · rw [if_pos hm', if_neg (by simp), hfilt]
    · rw [if_neg hm', if_neg (by simp), List.filter_cons, if_neg (by simp), hfilt]

theorem rowsFrom_route_id (j : String) (i : ℕ) :
    ∀ (route : List POI) (k : ℕ), (∀ p ∈ route, p.jurisdiction = j) →
      ∀ r ∈ rowsFrom i k route, r.route_id = routeIdOf j i
  | [], _, _ => by simp [rowsFrom]
  | poi :: rest, k, huni => by
    intro r hr
    simp only [rowsFrom, List.mem_cons] at hr
    rcases hr with rfl | hr
    · simp [rowOf, routeIdOf, huni poi (List.mem_cons_self _ _)]
    · exact rowsFrom_route_id j i rest (k + 1)
        (fun p hp => huni p (List.mem_cons_of_mem _ hp)) r hr

theorem rowsFrom_ne_nil (i k : ℕ) :
    ∀ (route : List POI), route ≠ [] → rowsFrom i k route ≠ []
  | [], h => absurd rfl h
  | _ :: _, _ => by simp [rowsFrom]

theorem flattenFrom_keys {paths : List (List POI)} {js : List String}
    (h : List.Forall₂ (fun route j => ∀ p ∈ route, p.jurisdiction = j) paths js) :
    ∀ (n : ℕ), ∀ r ∈ flattenFrom n paths, r.route_id ∈ keysFrom n js := by
  induction h with
  | nil => intro n r hr; simp [flattenFrom] at hr
  | cons h1 h2 ih =>
    rename_i route j rest js'
    intro n r hr
    simp only [flattenFrom, List.mem_append] at hr
    simp only [keysFrom]
    rcases hr with hr | hr
    · rw [rowsFrom_route_id j n route 0 h1 r hr]
      exact List.mem_cons_self _ _
    · exact List.mem_cons_of_mem _ (ih (n + 1) r hr)

theorem rowsFrom_map_rowStop (i : ℕ) :
    ∀ (route : List POI) (k : ℕ),
      (rowsFrom i k route).map rowStop = routeStops route
  | [], _ => rfl
  | poi :: rest, k => by
    simp only [rowsFrom, List.map_cons, routeStops]
    rw [show rowStop (rowOf i k poi) = (poi.id, poi.lat, poi.lon) from rfl]
    have := rowsFrom_map_rowStop i rest (k + 1)
    rw [this, routeStops]

theorem blocksFrom_map_stops :
    ∀ (paths : List (List POI)) (n : ℕ),
      (blocksFrom n paths).map (List.map rowStop) = paths.map routeStops
  | [], _ => rfl
  | route :: rest, n => by
    simp only [blocksFrom, List.map_cons]
    rw [rowsFrom_map_rowStop, blocksFrom_map_stops rest (n + 1)]

theorem rowsFrom_length (i : ℕ) :
    ∀ (route : List POI) (k : ℕ), (rowsFrom i k route).length = route.length
  | [], _ => rfl
  | _ :: rest, k => by
    simp [rowsFrom, rowsFrom_length i rest (k + 1)]

theorem flattenFrom_length :
    ∀ (paths : List (List POI)) (n : ℕ),
      (flattenFrom n paths).length = (paths.map List.length).sum
  | [], _ => rfl
  | route :: rest, n => by
    simp [flattenFrom, rowsFrom_length, flattenFrom_length rest (n + 1)]

theorem regroup_flattenFrom {paths : List (List POI)} {js : List String}
    (h : List.Forall₂
      (fun route j => route ≠ [] ∧ ∀ p ∈ route, p.jurisdiction = j) paths js) :
    ∀ (n : ℕ), (keysFrom n js).Nodup →
      regroupRoutes (flattenFrom n paths) = blocksFrom n paths := by
  induction h with
  | nil => intro n _; rfl
  | cons h1 h2 ih =>
    rename_i route j rest js'
    intro n hnd
    obtain ⟨hne, huni⟩ := h1
    simp only [keysFrom, List.nodup_cons] at hnd
    obtain ⟨hK, hnd'⟩ := hnd
    have huni2 : List.Forall₂ (fun route j => ∀ p ∈ route, p.jurisdiction = j)
        rest js' := h2.imp (fun _ _ hx => hx.2)
    have hB : ∀ r ∈ rowsFrom n 0 route, r.route_id = routeIdOf j n :=
      rowsFrom_route_id j n route 0 huni
    have hF : ∀ r ∈ flattenFrom (n + 1) rest, r.route_id ∈ keysFrom (n + 1) js' :=
      flattenFrom_keys huni2 (n + 1)
    have hFne : ∀ r ∈ flattenFrom (n + 1) rest, r.route_id ≠ routeIdOf j n :=
      fun r hr hEq => hK (hEq ▸ hF r hr)
    have h1k : uniqueKeys ((rowsFrom n 0 route ++ flattenFrom (n + 1) rest).map
        OutputRow.route_id) =
        routeIdOf j n ::
          uniqueKeys ((flattenFrom (n + 1) rest).map OutputRow.route_id) := by
      rw [List.map_append, uniq_const_append (routeIdOf j n)]
      · rw [if_neg]
        simp only [ne_eq, List.map_eq_nil_iff]
        exact rowsFrom_ne_nil n 0 route hne
      · intro x hx
        obtain ⟨r, hr, rfl⟩ := List.mem_map.mp hx
        exact hB r hr
      · intro hmem
        obtain ⟨r, hr, hid⟩ := List.mem_map.mp hmem
        exact hFne r hr hid
    have hfiltK : (rowsFrom n 0 route ++ flattenFrom (n + 1) rest).filter
        (fun r => decide (r.route_id = routeIdOf j n)) = rowsFrom n 0 route := by
      rw [List.filter_append,
        List.filter_eq_self.mpr (fun r hr => by simp [hB r hr]),
        List.filter_eq_nil_iff.mpr (fun r hr => by simp [hFne r hr]),
        List.append_nil]
    have htail : (uniqueKeys ((flattenFrom (n + 1) rest).map
          OutputRow.route_id)).map
          (fun k => (rowsFrom n 0 route ++ flattenFrom (n + 1) rest).filter
            (fun r => decide (r.route_id = k))) =
        regroupRoutes (flattenFrom (n + 1) rest) := by
      rw [regroupRoutes]
      apply List.map_congr_left
      intro k hk
      obtain ⟨r0, hr0, rfl⟩ := List.mem_map.mp (uniq_subset _ k hk)
      rw [List.filter_append,
        List.filter_eq_nil_iff.mpr (fun r hr => ?_), List.nil_append]
      simp only [decide_eq_true_eq]
      rw [hB r hr]
      intro hEq
      exact hK (hEq ▸ hF r0 hr0)
    show regroupRoutes (rowsFrom n 0 route ++ flattenFrom (n + 1) rest) =
      rowsFrom n 0 route :: blocksFrom (n + 1) rest
    rw [regroupRoutes, h1k, List.map_cons, hfiltK, htail, ih (n + 1) hnd']

/-- C7 (amended): for every list of per-day routes in which each day's route
is non-empty and lies wholly in one jurisdiction, and the composed route_ids
of the days are pairwise distinct, flattening produces exactly one row per
(day, stop) pair, rows in accepted route order per day, and re-grouping the
table by route_id reconstructs the ordered stop sequences
(poi_id, lat, lon) of the original routes exactly. -/
theorem flatten_regroup_roundtrip (paths : List (List POI)) (js : List String)
    (hall : List.Forall₂
      (fun route j => route ≠ [] ∧ ∀ p ∈ route, p.jurisdiction = j) paths js)
    (hkeys : (keysFrom 0 js).Nodup) :
    (flattenPaths paths).length = (paths.map List.length).sum ∧
    (regroupRoutes (flattenPaths paths)).map (List.map rowStop) =
      paths.map routeStops := by
  refine ⟨flattenFrom_length paths 0, ?_⟩
  rw [flattenPaths, regroup_flattenFrom hall 0 hkeys]
  exact blocksFrom_map_stops paths 0

/-- C7 witness: the round-trip evaluated on a concrete two-day run with
non-empty jurisdiction-uniform routes. -/
theorem flatten_regroup_roundtrip_witness :
    (flattenPaths [[poi_off], [poi_swimming]]).length =
      ([[poi_off], [poi_swimming]].map List.length).sum ∧
    (regroupRoutes (flattenPaths [[poi_off], [poi_swimming]])).map
        (List.map rowStop) = [[poi_off], [poi_swimming]].map routeStops :=
  flatten_regroup_roundtrip [[poi_off], [poi_swimming]] ["J1", "J5"]
    (List.Forall₂.cons ⟨by decide, by decide⟩
      (List.Forall₂.cons ⟨by decide, by decide⟩ List.Forall₂.nil))
    (by decide)

theorem flattenFrom_presentKeys {paths : List (List POI)} {js : List String}
    (h : List.Forall₂ (fun route j => ∀ p ∈ route, p.jurisdiction = j) paths js) :
    ∀ (n : ℕ), ∀ r ∈ flattenFrom n paths, r.route_id ∈ presentKeys n paths js := by
  induction h with
  | nil => intro n r hr; simp [flattenFrom] at hr
  | cons h1 h2 ih =>
    rename_i route j rest js'
    intro n r hr
    simp only [flattenFrom, List.mem_append] at hr
    simp only [presentKeys]
    rcases hr with hr | hr
    · by_cases hae : route = []
      · subst hae; simp [rowsFrom] at hr
      · rw [if_neg hae, rowsFrom_route_id j n route 0 h1 r hr]
        exact List.mem_cons_self _ _
    · by_cases hae : route = []
      · rw [if_pos hae]; exact ih (n + 1) r hr
      · rw [if_neg hae]; exact List.mem_cons_of_mem _ (ih (n + 1) r hr)

theorem presentKeys_length_le :
    ∀ (paths : List (List POI)) (js : List String) (n : ℕ),
      (presentKeys n paths js).length ≤ paths.length
  | [], _, _ => by simp [presentKeys]
  | _ :: _, [], _ => by simp [presentKeys]
  | route :: rest, j :: js, n => by
    simp only [presentKeys]
    by_cases hae : route = []
    · rw [if_pos hae]
      exact le_trans (presentKeys_length_le rest js (n + 1)) (Nat.le_succ _)
    · rw [if_neg hae]
      simpa using Nat.succ_le_succ (presentKeys_length_le rest js (n + 1))

theorem presentKeys_length_lt :
    ∀ (paths : List (List POI)) (js : List String) (n : ℕ),
      paths.length = js.length → (∃ route ∈ paths, route = []) →
      (presentKeys n paths js).length < paths.length
  | [], _, _, _, hex => by simp at hex
  | _ :: _, [], _, hlen, _ => by simp at hlen
  | route :: rest, j :: js, n, hlen, hex => by
    simp only [presentKeys]
    by_cases hae : route = []
    · rw [if_pos hae]
      exact Nat.lt_succ_of_le (presentKeys_length_le rest js (n + 1))
    · rw [if_neg hae]
      obtain ⟨r0, hr0, hr0e⟩ := hex
      rcases List.mem_cons.mp hr0 with rfl | hr0m
      · exact absurd hr0e hae
      · have hrec := presentKeys_length_lt rest js (n + 1) (by simpa using hlen)
          ⟨r0, hr0m, hr0e⟩
        simpa using Nat.succ_lt_succ hrec

/-- C10: a day whose built route is empty contributes zero rows to the
flattened table; hence a jurisdiction-uniform run (as the builder produces)
containing at least one day with an empty route re-groups to strictly fewer
routes than the run produced — flattening is an exact inverse of
re-grouping only when every day's route is non-empty. -/
theorem empty_route_shrinks_regroup (paths : List (List POI)) (js : List String)
    (huni : List.Forall₂
      (fun route j => ∀ p ∈ route, p.jurisdiction = j) paths js)
    (hempty : ∃ route ∈ paths, route = []) :
    (∀ i k : ℕ, rowsFrom i k [] = []) ∧
    (regroupRoutes (flattenPaths paths)).length < paths.length := by
  refine ⟨fun i k => rfl, ?_⟩
  have hsub : ∀ x ∈ uniqueKeys ((flattenFrom 0 paths).map OutputRow.route_id),
      x ∈ presentKeys 0 paths js := by
    intro x hx
    obtain ⟨r, hr, rfl⟩ := List.mem_map.mp (uniq_subset _ x hx)
    exact flattenFrom_presentKeys huni 0 r hr
  have hlen1 : (uniqueKeys ((flattenFrom 0 paths).map
      OutputRow.route_id)).length ≤ (presentKeys 0 paths js).length :=
    (List.Nodup.subperm (uniq_nodup _) hsub).length_le
  have hlen2 : (presentKeys 0 paths js).length < paths.length :=
    presentKeys_length_lt paths js 0 huni.length_eq hempty
  calc (regroupRoutes (flattenPaths paths)).length
      = (uniqueKeys ((flattenFrom 0 paths).map OutputRow.route_id)).length := by
        simp [regroupRoutes, flattenPaths]
    _ ≤ (presentKeys 0 paths js).length := hlen1
    _ < paths.length := hlen2

/-- C10 witness: a two-day run whose second route is empty re-groups to a
single route. -/
theorem empty_route_shrinks_regroup_witness :
    (∀ i k : ℕ, rowsFrom i k [] = []) ∧
    (regroupRoutes (flattenPaths [[poi_off], []])).length < 2 :=
  empty_route_shrinks_regroup [[poi_off], []] ["J1", "J1"]
    (List.Forall₂.cons (by decide)
      (List.Forall₂.cons (by decide) List.Forall₂.nil))
    ⟨[], by decide, rfl⟩
